import Mathlib

/-!
Verification development for the VibeMatch repository.

The repository ships its documentation (README, deployment guides), the
Next.js frontend, and setup scripts; the FastAPI backend that implements the
embedding resolver, temporal aggregator, matching gateway and ghost seeder
(backend/app/services, backend/app/utils) is not part of the source tree.
Definitions below are therefore of two kinds:

* verbatim shallow embeddings of code that is present (frontend components,
  README algorithm snippets), and
* models reconstructed from the specification for the missing backend
  modules; each such definition carries a doc comment starting with
  `Modelled from the spec:`.

Floating-point arithmetic of the original program is modelled by exact real
or rational arithmetic.
-/

namespace VibeMatch

/-- Embedding dimensionality: the catalog and all user embeddings are
128-dimensional vectors (README "Model Specs", spec section 3). -/
abbrev embeddingDim : ℕ := 128

/-- A fixed-dimension real vector, the shallow embedding of an
`ItemEmbedding` / `UserEmbedding` payload. -/
abbrev Vec : Type := Fin embeddingDim → ℝ

/-- The all-zeros vector. -/
def zeroVec : Vec := fun _ => 0

/-- Squared L2 norm of a vector. -/
def normSq (v : Vec) : ℝ := ∑ i, v i ^ 2

/-- L2 norm of a vector. -/
noncomputable def l2norm (v : Vec) : ℝ := Real.sqrt (normSq v)

/-! ## Frontend landing-page time-period display (src/unnamed/part_015) -/

/-- One entry of the landing page `timePeriods` array: a window label and the
percentage string shown to the user. -/
structure TimePeriodDisplay where
  label : String
  weight : String
deriving DecidableEq

/-- The `timePeriods` constant of the frontend `HowItWorks` component,
embedded verbatim from src/unnamed/part_015 lines 8-13. -/
def timePeriods : List TimePeriodDisplay :=
  [⟨"All Time", "15%"⟩,
   ⟨"6 Months", "25%"⟩,
   ⟨"3 Months", "35%"⟩,
   ⟨"Recent", "25%"⟩]

/-! ## Per-window weights of the temporal aggregator -/

/-- The four listening windows combined by the temporal aggregator
(spec section 3, WindowStat). -/
inductive WindowLabel : Type
  | overall
  | last6
  | last3
  | recent200
deriving DecidableEq

/-- Modelled from the spec: the fixed per-window weight constants of the
temporal aggregator (spec section 4.3; README "Data Sources" diagram gives the
same four percentages).  The backend module holding these constants
(backend/app/services/embedding.py) is not in the source tree. -/
def windowWeight : WindowLabel → ℚ
  | .overall => 45 / 100
  | .last6 => 25 / 100
  | .last3 => 15 / 100
  | .recent200 => 15 / 100

/-! ## Compatibility score (README "Matching Algorithm" snippet) -/

/-- Truncation toward zero of a rational, the semantics of Python's `int()`
conversion applied to a float. -/
def truncToward0 (q : ℚ) : ℤ := if 0 ≤ q then ⌊q⌋ else ⌈q⌉

/-- The compatibility score computed from a raw cosine similarity, embedded
from the README's matching-algorithm snippet (src/unnamed/part_004 lines
334-335): `compatibility_score = int(similarity * 100)`.  Python's `int()`
truncates toward zero; no clamping is applied. -/
def compatibilityScore (similarity : ℚ) : ℤ := truncToward0 (similarity * 100)

/-- The score formula as the specification words it (section 4.4):
`round(cosineSimilarity * 100)`, clamped to [0, 100].  Stated only to be
compared against `compatibilityScore` from the README. -/
def compatibilityScoreSpec (similarity : ℚ) : ℤ :=
  max 0 (min 100 (round (similarity * 100)))

/-! ## Cold-start seeder segment mix -/

/-- Modelled from the spec: the default segment mix of the cold-start seeder
(spec section 4.5; README "Ghost Users" section gives the same proportions:
40% mainstream, 30% niche, 20% veteran, 10% international).  The seeder
itself (backend/app/utils/ghost_seeder.py) is not in the source tree. -/
def defaultSegmentMix : List (String × ℚ) :=
  [("mainstream-heavy", 40 / 100),
   ("niche-genre", 30 / 100),
   ("veteran", 20 / 100),
   ("international", 10 / 100)]

/-- Modelled from the spec: number of synthetic profiles drawn from each
segment when seeding `count` profiles with the default mix — the rounded
target share of each segment. -/
def segmentCounts (count : ℕ) : List (String × ℕ) :=
  defaultSegmentMix.map fun seg => (seg.1, (round (seg.2 * (count : ℚ)) : ℤ).toNat)

/-! ## MatchesSection rendering (src/frontend/src/components/dashboard) -/

/-- The number of `MatchCard`s the `MatchesSection` component renders:
`matches.slice(0, 8)` in MatchesSection.tsx line 27. -/
def displayLimit : ℕ := 8

/-- The limit the dashboard data loader passes to `getTopMatches`
(dashboard/page.tsx: `getTopMatches(20)`; the api-client default is also
20). -/
def matchesRequestLimit : ℕ := 20

/-- Shallow embedding of the `MatchesSection` component body
(MatchesSection.tsx lines 27-29): the list of `(match, rank)` pairs rendered
as `MatchCard`s — `matches.slice(0, 8).map((match, idx) =>
MatchCard(match, rank := idx + 1))`. -/
def renderMatches {α : Type} (ms : List α) : List (α × ℕ) :=
  (ms.take displayLimit).enum.map fun p => (p.2, p.1 + 1)

/-! ## Temporal aggregator (modelled from the spec, section 4.3)

The backend module backend/app/services/embedding.py that implements
`aggregate` is not in the source tree; the following definitions are
modelled from the spec's description of the weighting pipeline, which the
README's "User Embedding Strategy" section mirrors (log1p playcount weight,
temporal decay 0.5^(days/30), consistency boost 1.4, per-window weights,
weighted mean, L2 normalization). -/

/-- One (ItemKey, playCount, windowLabel) listening statistic; recent-200
entries carry the age in days of the listening event, the other windows have
no per-event timestamp. -/
structure WindowStat where
  key : String
  playCount : ℕ
  window : WindowLabel
  ageInDays : Option ℕ
deriving DecidableEq

/-- Modelled from the spec: `log1p` frequency weighting of a play count. -/
noncomputable def log1p (n : ℕ) : ℝ := Real.log (1 + (n : ℝ))

/-- Modelled from the spec: temporal decay `0.5 ^ (ageInDays / 30)` for
stats carrying a recency timestamp; decay 1 for windows without per-event
timestamps. -/
noncomputable def temporalDecay : Option ℕ → ℝ
  | none => 1
  | some age => (1 / 2 : ℝ) ^ ((age : ℝ) / 30)

/-- Modelled from the spec: the weight of one WindowStat,
`log1p(playCount) * windowWeight * temporalDecay`. -/
noncomputable def itemWeight (s : WindowStat) : ℝ :=
  log1p s.playCount * ((windowWeight s.window : ℚ) : ℝ) * temporalDecay s.ageInDays

/-- Modelled from the spec: the consistency boost factor — 1.4 when an item
resolves in more than one window, applied once, else 1. -/
def boostFactor (windowCount : ℕ) : ℚ := if 2 ≤ windowCount then 14 / 10 else 1

/-- The stats whose item resolves to an embedding (misses are excluded from
aggregation). The resolver is abstracted as a `String → Option Vec` map. -/
def resolvedStats (r : String → Option Vec) (stats : List WindowStat) :
    List WindowStat :=
  stats.filter fun s => (r s.key).isSome

/-- The distinct resolvable item keys, in first-appearance order. -/
def resolvedKeys (r : String → Option Vec) (stats : List WindowStat) :
    List String :=
  ((resolvedStats r stats).map WindowStat.key).dedup

/-- The resolvable stats of one item key. -/
def keyStats (r : String → Option Vec) (stats : List WindowStat) (k : String) :
    List WindowStat :=
  (resolvedStats r stats).filter fun s => s.key == k

/-- The distinct windows in which one item key resolves. -/
def windowsOf (r : String → Option Vec) (stats : List WindowStat) (k : String) :
    List WindowLabel :=
  ((keyStats r stats k).map WindowStat.window).dedup

/-- An item's weight summed over all windows, before the consistency boost. -/
noncomputable def preBoostWeight (r : String → Option Vec)
    (stats : List WindowStat) (k : String) : ℝ :=
  ((keyStats r stats k).map itemWeight).sum

/-- Modelled from the spec: an item's combined weight — its per-window
weights summed and then multiplied once by the consistency boost factor. -/
noncomputable def combinedWeight (r : String → Option Vec)
    (stats : List WindowStat) (k : String) : ℝ :=
  preBoostWeight r stats k * ((boostFactor (windowsOf r stats k).length : ℚ) : ℝ)

/-- Total weight over all resolvable items. -/
noncomputable def weightSum (r : String → Option Vec)
    (stats : List WindowStat) : ℝ :=
  ((resolvedKeys r stats).map (combinedWeight r stats)).sum

/-- The embedding an item key resolves to (zero for misses; misses never
enter the weighted sum since their stats are filtered out). -/
def vecOf (r : String → Option Vec) (k : String) : Vec := (r k).getD zeroVec

/-- The accumulator: sum of weight × vector over all resolvable items. -/
noncomputable def weightedVecSum (r : String → Option Vec)
    (stats : List WindowStat) : Vec :=
  fun i => ((resolvedKeys r stats).map fun k => combinedWeight r stats k * vecOf r k i).sum

/-- The weighted mean: accumulator divided by the weight sum. -/
noncomputable def meanVec (r : String → Option Vec)
    (stats : List WindowStat) : Vec :=
  fun i => weightedVecSum r stats i / weightSum r stats

/-- L2 normalization of a vector (division by its L2 norm). -/
noncomputable def normalize (v : Vec) : Vec := fun i => v i / l2norm v

/-- A user embedding: the normalized vector plus coverage metadata. -/
structure UserEmbedding where
  username : String
  vector : Vec
  coverage : ℚ

/-- Coverage ratio: resolved items / total items considered. -/
def coverageRatio (r : String → Option Vec) (stats : List WindowStat) : ℚ :=
  ((resolvedStats r stats).length : ℚ) / (stats.length : ℚ)

/-- Modelled from the spec: `aggregate` — weighted mean of the resolvable
items' embeddings, L2-normalized; when the weight sum is zero it returns the
zero-weight embedding with coverage flagged 0, guarding the division. -/
noncomputable def aggregate (r : String → Option Vec) (username : String)
    (stats : List WindowStat) : UserEmbedding :=
  if weightSum r stats = 0 then ⟨username, zeroVec, 0⟩
  else ⟨username, normalize (meanVec r stats), coverageRatio r stats⟩

/-! ## Concrete inputs used by witnesses and counterexamples -/

/-- The first standard basis vector (a unit-norm catalog embedding). -/
def e0 : Vec := fun i => if i = 0 then 1 else 0

/-- The negated first basis vector (also unit norm). -/
def e0neg : Vec := fun i => if i = 0 then -1 else 0

/-- A resolver whose catalog carries the single item "a" with embedding e0. -/
def rOne : String → Option Vec := fun k => if k = "a" then some e0 else none

/-- A resolver carrying two items with exactly opposite unit embeddings. -/
def rCancel : String → Option Vec :=
  fun k => if k = "a" then some e0 else if k = "b" then some e0neg else none

/-! ## Evaluation helpers for concrete aggregation inputs -/

/-- A single overall-window stat for item "a" with one play. -/
def statsOne : List WindowStat := [⟨"a", 1, .overall, none⟩]

/-- Two items with opposite embeddings, both with one overall play. -/
def statsCancel : List WindowStat :=
  [⟨"a", 1, .overall, none⟩, ⟨"b", 1, .overall, none⟩]

/-- Item "a" split over two windows: 1 overall play and 2 recent plays aged
300 days (aggregate play count 3). -/
def statsTwoWin : List WindowStat :=
  [⟨"a", 1, .overall, none⟩, ⟨"a", 2, .recent200, some 300⟩]

/-- Item "a" in a single window with the same aggregate play count 3. -/
def statsOneWin : List WindowStat := [⟨"a", 3, .overall, none⟩]

/-! ## Embedding lookup resolver (modelled from the spec, section 4.1) -/

/-- Provenance tier of a resolved item (spec section 3): the tagged variant
`exact | fuzzy | zero-shot | miss`. -/
inductive Tier : Type
  | exact
  | fuzzy
  | zeroShot
  | miss
deriving DecidableEq

/-- A resolver result: the item key, its embedding if any, and the tier that
produced it (`miss` carries no vector). -/
structure ResolvedItem where
  key : String
  vec : Option Vec
  tier : Tier

/-- Modelled from the spec: the static item catalog consulted by the
resolver — the exact hash index, the fuzzy nearest-neighbor string index
(returning the closest known key and its embedding), and the zero-shot
artist inference.  The backend module implementing them is not in the
source tree. -/
structure Catalog where
  exactLookup : String → Option Vec
  fuzzyLookup : String → Option (String × Vec)
  zeroShotLookup : String → Option Vec

/-- Modelled from the spec: the resolver fallback chain below the cache —
exact match, then fuzzy, then zero-shot, then miss; first success wins. -/
def resolveUncached (c : Catalog) (k : String) : ResolvedItem :=
  match c.exactLookup k with
  | some v => ⟨k, some v, .exact⟩
  | none =>
    match c.fuzzyLookup k with
    | some kv => ⟨k, some kv.2, .fuzzy⟩
    | none =>
      match c.zeroShotLookup k with
      | some v => ⟨k, some v, .zeroShot⟩
      | none => ⟨k, none, .miss⟩

/-- Association-list lookup, most-recently-used entry first. -/
def lookupEntry (l : List (String × ResolvedItem)) (k : String) :
    Option ResolvedItem :=
  (l.find? fun e => e.1 == k).map Prod.snd

/-- Modelled from the spec: `resolve` — the cache is consulted first (tier
preserved), then the catalog fallback chain. -/
def resolve (c : Catalog) (cache : List (String × ResolvedItem)) (k : String) :
    ResolvedItem :=
  match lookupEntry cache k with
  | some item => item
  | none => resolveUncached c k

/-- A cache is faithful to the static catalog when every cached entry is
exactly the resolution the catalog chain produces for its key — the
invariant maintained by inserting only non-miss resolver outputs while the
catalog stays immutable. -/
def CacheFaithful (c : Catalog) (cache : List (String × ResolvedItem)) : Prop :=
  ∀ k item, lookupEntry cache k = some item → item = resolveUncached c k

/-- A catalog for the witness: item "a" has an exact embedding AND a fuzzy
candidate, so the fallback order is observable. -/
def catalogW : Catalog :=
  ⟨fun k => if k = "a" then some e0 else none,
   fun k => if k = "a" then some ("b", e0neg) else none,
   fun _ => none⟩

/-! ## Similarity matching gateway (modelled from the spec, section 4.4) -/

/-- A match candidate as shaped by the gateway: candidate id, raw cosine
similarity, and the compatibility score derived from it. -/
structure MatchCandidate where
  candidateId : String
  rawSimilarity : ℚ
  score : ℤ

/-- Outcome of one query against the external vector index: a ranked hit
list, or the index was unreachable, or the query exceeded the configured
timeout. -/
inductive IndexResult : Type
  | ok (hits : List (String × ℚ))
  | unreachable
  | timedOut

/-- The request-fatal failure conditions of the matching gateway. -/
inductive MatchFailure : Type
  | dependencyUnavailable
  | dependencyTimeout
deriving DecidableEq

/-- Modelled from the spec: `findMatches`/`getMatches` result handling — the
gateway is all-or-nothing per request: an unreachable index fails the whole
request with DependencyUnavailable, a timed-out query fails it with
DependencyTimeout, and only a successful index response produces a (fully
shaped) candidate list.  The backend module is not in the source tree. -/
def findMatches (resp : IndexResult) : Except MatchFailure (List MatchCandidate) :=
  match resp with
  | .ok hits => .ok (hits.map fun h => ⟨h.1, h.2, compatibilityScore h.2⟩)
  | .unreachable => .error .dependencyUnavailable
  | .timedOut => .error .dependencyTimeout

/-! ## Embedding cache (modelled from the spec, section 4.2) -/

/-- Modelled from the spec: the bounded LRU embedding cache — a
key→ResolvedItem store kept in access order (most recently used first) with
a fixed capacity and no TTL.  The backend module implementing it is not in
the source tree. -/
structure LRUCache where
  capacity : ℕ
  entries : List (String × ResolvedItem)

/-- The cache's default fixed capacity: 8,000 entries. -/
def defaultCapacity : ℕ := 8000

/-- The empty cache at the default capacity. -/
def LRUCache.empty : LRUCache := ⟨defaultCapacity, []⟩

/-- Cache read: on a hit the entry moves to the front of the access order
(a get counts as a use); a miss changes nothing.  No entry is ever removed
by a get. -/
def LRUCache.get (c : LRUCache) (k : String) : Option ResolvedItem × LRUCache :=
  match lookupEntry c.entries k with
  | some v => (some v, ⟨c.capacity, (k, v) :: c.entries.eraseP fun e => e.1 == k⟩)
  | none => (none, c)

/-- Cache write: insert or refresh the key at the front of the access
order; when this exceeds the capacity, the tail — the least-recently-used
entry — is dropped. -/
def LRUCache.put (c : LRUCache) (k : String) (v : ResolvedItem) : LRUCache :=
  ⟨c.capacity, ((k, v) :: c.entries.eraseP fun e => e.1 == k).take c.capacity⟩

/-- The cached keys in access order, most recently used first. -/
def cacheKeys (c : LRUCache) : List String := c.entries.map Prod.fst

/-- The least-recently-used key: the last one in access order. -/
def lruKey (c : LRUCache) : Option String := c.entries.getLast?.map Prod.fst

/-- One cache operation. -/
inductive CacheOp : Type
  | get (k : String)
  | put (k : String) (v : ResolvedItem)

/-- Apply one operation, keeping only the cache state. -/
def applyOp (c : LRUCache) : CacheOp → LRUCache
  | .get k => (c.get k).2
  | .put k v => c.put k v

/-- Run a sequence of operations left to right. -/
def runOps (c : LRUCache) (ops : List CacheOp) : LRUCache := ops.foldl applyOp c

/-- Cache well-formedness: within capacity, no duplicate keys. -/
def CacheWF (c : LRUCache) : Prop :=
  c.entries.length ≤ c.capacity ∧ (cacheKeys c).Nodup

/-- A throwaway cached value for concrete cache scenarios. -/
def demoItem : ResolvedItem := ⟨"demo", none, .miss⟩

/-! ## Basic norm lemmas -/

theorem normSq_nonneg (v : Vec) : 0 ≤ normSq v :=
  Finset.sum_nonneg fun i _ => sq_nonneg (v i)

theorem l2norm_normalize_of_normSq_ne_zero (v : Vec) (h : normSq v ≠ 0) :
    l2norm (normalize v) = 1 := by
  have hpos : 0 < normSq v := (normSq_nonneg v).lt_of_ne (Ne.symm h)
  have hs : 0 < l2norm v := Real.sqrt_pos.mpr hpos
  have hsq : l2norm v ^ 2 = normSq v := Real.sq_sqrt (normSq_nonneg v)
  have hnormSq : normSq (normalize v) = 1 := by
    unfold normSq normalize
    rw [show ∀ f : Fin embeddingDim → ℝ, (∑ i, (f i / l2norm v) ^ 2) =
        (∑ i, f i ^ 2) / l2norm v ^ 2 from fun f => by
      rw [Finset.sum_div]
      exact Finset.sum_congr rfl fun i _ => div_pow (f i) (l2norm v) 2]
    rw [hsq]
    exact div_self h
  unfold l2norm
  rw [hnormSq]
  exact Real.sqrt_one

theorem windowWeight_pos (w : WindowLabel) : 0 < windowWeight w := by
  cases w <;> norm_num [windowWeight]

theorem temporalDecay_pos (a : Option ℕ) : 0 < temporalDecay a := by
  cases a with
  | none => norm_num [temporalDecay]
  | some age =>
    have hd : (0 : ℝ) < (1 / 2 : ℝ) ^ ((age : ℝ) / 30) :=
      Real.rpow_pos_of_pos (by norm_num) _
    exact hd

theorem log1p_pos {n : ℕ} (h : 1 ≤ n) : 0 < log1p n := by
  unfold log1p
  refine Real.log_pos ?_
  have : (1 : ℝ) ≤ (n : ℝ) := by exact_mod_cast h
  linarith

theorem itemWeight_pos (s : WindowStat) (h : 1 ≤ s.playCount) :
    0 < itemWeight s := by
  unfold itemWeight
  have h1 : 0 < log1p s.playCount := log1p_pos h
  have h2 : (0 : ℝ) < ((windowWeight s.window : ℚ) : ℝ) := by
    exact_mod_cast windowWeight_pos s.window
  have h3 : 0 < temporalDecay s.ageInDays := temporalDecay_pos s.ageInDays
  positivity

/-! ## Claim C4 -/

/-- Claim C4 (code_bug evidence): the spec, the README diagram and the claim
give per-window weights overall 45%, last-6-months 25%, last-3-months 15%,
recent-200 15%; the frontend landing page's `timePeriods` array instead
displays 15% / 25% / 35% / 25%, contradicting the repository's own
documentation at its first and third entries. -/
theorem C4_weights_display_divergence :
    windowWeight .overall = 45 / 100 ∧
    windowWeight .last6 = 25 / 100 ∧
    windowWeight .last3 = 15 / 100 ∧
    windowWeight .recent200 = 15 / 100 ∧
    timePeriods.map TimePeriodDisplay.weight = ["15%", "25%", "35%", "25%"] ∧
    ("15%" : String) ≠ "45%" ∧ ("35%" : String) ≠ "15%" := by
  refine ⟨rfl, rfl, rfl, rfl, rfl, ?_, ?_⟩ <;> decide

/-! ## Claim C3 -/

/-- Claim C3 (counterexample): the README's score `int(similarity * 100)`
differs from the claimed `round` clamped to [0, 100]: at similarity -1/2 the
code yields -50 (negative, unclamped) while the claim demands 0, and at
similarity 219/250 the code truncates to 87 while rounding gives 88. -/
theorem C3_counterexample :
    compatibilityScore (-1 / 2) = -50 ∧
    compatibilityScoreSpec (-1 / 2) = 0 ∧
    compatibilityScore (-1 / 2) ≠ compatibilityScoreSpec (-1 / 2) ∧
    compatibilityScore (219 / 250) = 87 ∧
    compatibilityScoreSpec (219 / 250) = 88 ∧
    ¬ (0 : ℤ) ≤ compatibilityScore (-1 / 2) := by
  have h1 : compatibilityScore (-1 / 2) = -50 := by
    norm_num [compatibilityScore, truncToward0]
    rw [show ((-50 : ℚ)) = ((-50 : ℤ) : ℚ) by norm_num, Int.ceil_intCast]
  have h2 : compatibilityScoreSpec (-1 / 2) = 0 := by
    norm_num [compatibilityScoreSpec, round_eq]
  have h3 : compatibilityScore (219 / 250) = 87 := by
    norm_num [compatibilityScore, truncToward0]
  have h4 : compatibilityScoreSpec (219 / 250) = 88 := by
    norm_num [compatibilityScoreSpec, round_eq]
  refine ⟨h1, h2, ?_, h3, h4, ?_⟩
  · rw [h1, h2]; decide
  · rw [h1]; decide

/-- Claim C3 (amended): for every cosine similarity in [-1, 1] the
compatibility score of the README's matching algorithm equals
`int(similarity * 100)` — truncation toward zero, with no rounding and no
clamping — hence an integer in [-100, 100]; whenever the similarity is
nonnegative the score is nonnegative and so lies in [0, 100].  (The converse
fails: truncation collapses every similarity in (-1/100, 0) to score 0.) -/
theorem C3_score_bounds (s : ℚ) (h1 : -1 ≤ s) (h2 : s ≤ 1) :
    compatibilityScore s = truncToward0 (s * 100) ∧
    -100 ≤ compatibilityScore s ∧ compatibilityScore s ≤ 100 ∧
    (0 ≤ s → 0 ≤ compatibilityScore s) := by
  have hs100 : s * 100 ≤ 100 := by nlinarith
  have hs100l : -100 ≤ s * 100 := by nlinarith
  refine ⟨rfl, ?_, ?_, ?_⟩
  · unfold compatibilityScore truncToward0
    by_cases h : 0 ≤ s * 100
    · simp only [h, if_true]
      refine Int.le_floor.mpr ?_
      push_cast
      linarith
    · simp only [h, if_false]
      have hc : s * 100 ≤ (⌈s * 100⌉ : ℚ) := Int.le_ceil _
      have : ((-100 : ℤ) : ℚ) ≤ (⌈s * 100⌉ : ℚ) := by push_cast; linarith
      exact_mod_cast this
  · unfold compatibilityScore truncToward0
    by_cases h : 0 ≤ s * 100
    · simp only [h, if_true]
      have hf : (⌊s * 100⌋ : ℚ) ≤ s * 100 := Int.floor_le _
      have : ((⌊s * 100⌋ : ℤ) : ℚ) ≤ ((100 : ℤ) : ℚ) := by push_cast; linarith
      exact_mod_cast this
    · simp only [h, if_false]
      refine Int.ceil_le.mpr ?_
      push_cast
      linarith
  · intro hs
    have h : 0 ≤ s * 100 := by positivity
    unfold compatibilityScore truncToward0
    simp only [h, if_true]
    refine Int.le_floor.mpr ?_
    push_cast
    linarith

/-- Claim C3 witness: the amended bounds at the concrete similarity 3/4. -/
theorem C3_score_bounds_witness :
    compatibilityScore (3 / 4) = truncToward0 ((3 : ℚ) / 4 * 100) ∧
    -100 ≤ compatibilityScore (3 / 4) ∧ compatibilityScore (3 / 4) ≤ 100 ∧
    ((0 : ℚ) ≤ 3 / 4 → 0 ≤ compatibilityScore (3 / 4)) :=
  C3_score_bounds (3 / 4) (by norm_num) (by norm_num)

/-! ## Claim C9 -/

/-- Claim C9: with the default segment mix (mainstream-heavy 40%, niche-genre
30%, veteran 20%, international 10%), seeding 1000 profiles assigns exactly
400 / 300 / 200 / 100 profiles to the four segments (well within the ±5%
rounding allowance), and in general each segment's rounded count differs from
its exact target share by at most 1/2, hence by at most 5% of the total for
any count of at least 10. -/
theorem C9_segment_mix :
    defaultSegmentMix.map Prod.snd = [40 / 100, 30 / 100, 20 / 100, 10 / 100] ∧
    segmentCounts 1000 =
      [("mainstream-heavy", 400), ("niche-genre", 300),
       ("veteran", 200), ("international", 100)] ∧
    ((segmentCounts 1000).map Prod.snd).sum = 1000 ∧
    (∀ count : ℕ, 10 ≤ count → ∀ p ∈ defaultSegmentMix,
      |(((round (p.2 * (count : ℚ)) : ℤ).toNat : ℚ)) - p.2 * count| ≤ 5 / 100 * count) := by
  have hcounts : segmentCounts 1000 =
      [("mainstream-heavy", 400), ("niche-genre", 300),
       ("veteran", 200), ("international", 100)] := by
    norm_num [segmentCounts, defaultSegmentMix, round_eq]
    omega
  refine ⟨by norm_num [defaultSegmentMix], hcounts, by rw [hcounts]; decide, ?_⟩
  intro count hcount p hp
  have hp2 : 0 < p.2 := by
    fin_cases hp <;> norm_num
  have hnonneg : (0 : ℚ) ≤ p.2 * count := by positivity
  have hround : (0 : ℤ) ≤ round (p.2 * (count : ℚ)) := by
    rw [round_eq]
    exact Int.floor_nonneg.mpr (by linarith)
  have htoNat : (((round (p.2 * (count : ℚ)) : ℤ).toNat : ℚ)) =
      ((round (p.2 * (count : ℚ)) : ℤ) : ℚ) := by
    exact_mod_cast congrArg (fun z : ℤ => (z : ℚ)) (Int.toNat_of_nonneg hround)
  rw [htoNat]
  have habs : |((round (p.2 * (count : ℚ)) : ℤ) : ℚ) - p.2 * count| ≤ 1 / 2 := by
    rw [abs_sub_comm]
    exact abs_sub_round (p.2 * (count : ℚ))
  refine habs.trans ?_
  have : (10 : ℚ) ≤ count := by exact_mod_cast hcount
  linarith

/-- Claim C9 witness: the rounding-deviation bound at count 1000 for the
mainstream-heavy segment. -/
theorem C9_segment_mix_witness :
    |(((round (((40 : ℚ) / 100) * ((1000 : ℕ) : ℚ)) : ℤ).toNat : ℚ)) -
        40 / 100 * (1000 : ℕ)| ≤ 5 / 100 * (1000 : ℕ) :=
  C9_segment_mix.2.2.2 1000 (by norm_num) ("mainstream-heavy", 40 / 100)
    (by simp [defaultSegmentMix])

/-! ## Claim C10 -/

/-- Claim C10: the `MatchesSection` component renders exactly the first
`displayLimit = 8` matches, in order, assigning rank i+1 to the match at list
position i; matches beyond the first 8 are never rendered, even though the
dashboard loader requests `matchesRequestLimit = 20` matches from
`getTopMatches`. -/
theorem C10_matches_section_renders_first_eight {α : Type} (ms : List α) :
    matchesRequestLimit = 20 ∧
    (renderMatches ms).map Prod.fst = ms.take 8 ∧
    (renderMatches ms).map Prod.snd =
      (List.range (ms.take 8).length).map (· + 1) ∧
    (renderMatches ms).length ≤ 8 := by
  refine ⟨rfl, ?_, ?_, ?_⟩
  · unfold renderMatches displayLimit
    rw [List.map_map]
    have h : (Prod.fst ∘ fun p : ℕ × α => (p.2, p.1 + 1)) = Prod.snd := rfl
    rw [h, List.enum_map_snd]
  · unfold renderMatches displayLimit
    rw [List.map_map]
    have h : (Prod.snd ∘ fun p : ℕ × α => (p.2, p.1 + 1)) = (· + 1) ∘ Prod.fst := rfl
    rw [h, ← List.map_map, List.enum_map_fst]
  · unfold renderMatches displayLimit
    calc ((ms.take 8).enum.map fun p => (p.2, p.1 + 1)).length
        = (ms.take 8).length := by rw [List.length_map, List.enum_length]
      _ ≤ 8 := by rw [List.length_take]; exact min_le_left _ _

theorem normSq_e0 : normSq e0 = 1 := by
  unfold normSq e0
  rw [Finset.sum_congr rfl (fun i _ => show (if i = 0 then (1 : ℝ) else 0) ^ 2 =
      if i = (0 : Fin embeddingDim) then 1 else 0 by split <;> norm_num)]
  simp

/-! ## Claim C6 -/

/-- Claim C6: the weight of a WindowStat equals
`log1p(playCount) * windowWeight * temporalDecay`, with decay
`0.5 ^ (ageInDays / 30)` for stats carrying a recency timestamp (the
recent-200 window) and decay 1 for windows without per-event timestamps;
and, everything else fixed, a strictly larger playCount gives a strictly
larger item weight. -/
theorem C6_item_weight_formula_monotone :
    (∀ s : WindowStat, itemWeight s =
      Real.log (1 + (s.playCount : ℝ)) * ((windowWeight s.window : ℚ) : ℝ) *
        temporalDecay s.ageInDays) ∧
    (∀ age : ℕ, temporalDecay (some age) = (1 / 2 : ℝ) ^ ((age : ℝ) / 30)) ∧
    temporalDecay none = 1 ∧
    (∀ (k : String) (p q : ℕ) (w : WindowLabel) (a : Option ℕ), p < q →
      itemWeight ⟨k, p, w, a⟩ < itemWeight ⟨k, q, w, a⟩) := by
  refine ⟨fun s => rfl, fun age => rfl, rfl, ?_⟩
  intro k p q w a hpq
  unfold itemWeight log1p
  have hlog : Real.log (1 + (p : ℝ)) < Real.log (1 + (q : ℝ)) := by
    refine Real.log_lt_log (by positivity) ?_
    have : (p : ℝ) < (q : ℝ) := by exact_mod_cast hpq
    linarith
  have hw : (0 : ℝ) < ((windowWeight w : ℚ) : ℝ) := by
    exact_mod_cast windowWeight_pos w
  have hd : 0 < temporalDecay a := temporalDecay_pos a
  have h1 : Real.log (1 + (p : ℝ)) * ((windowWeight w : ℚ) : ℝ) <
      Real.log (1 + (q : ℝ)) * ((windowWeight w : ℚ) : ℝ) :=
    mul_lt_mul_of_pos_right hlog hw
  exact mul_lt_mul_of_pos_right h1 hd

/-- Claim C6 witness: strict monotonicity at play counts 1 < 2 in the
overall window. -/
theorem C6_item_weight_formula_monotone_witness :
    (1 : ℕ) < 2 ∧
    itemWeight ⟨"a", 1, .overall, none⟩ < itemWeight ⟨"a", 2, .overall, none⟩ :=
  ⟨by norm_num,
    C6_item_weight_formula_monotone.2.2.2 "a" 1 2 .overall none (by norm_num)⟩

theorem combinedWeight_single (r : String → Option Vec) (stats : List WindowStat)
    (k : String) (s : WindowStat)
    (hks : keyStats r stats k = [s])
    (hwin : (windowsOf r stats k).length = 1) :
    combinedWeight r stats k = itemWeight s := by
  rw [combinedWeight, preBoostWeight, hks, hwin]
  norm_num [boostFactor]

theorem itemWeight_overall (k : String) (n : ℕ) :
    itemWeight ⟨k, n, .overall, none⟩ =
      Real.log (1 + (n : ℝ)) * ((45 / 100 : ℚ) : ℝ) := by
  simp [itemWeight, log1p, windowWeight, temporalDecay]

theorem combinedWeight_statsOne :
    combinedWeight rOne statsOne "a" = Real.log 2 * ((45 / 100 : ℚ) : ℝ) := by
  rw [combinedWeight_single rOne statsOne "a" ⟨"a", 1, .overall, none⟩
      (by decide) (by decide)]
  rw [itemWeight_overall]
  norm_num

theorem weightSum_statsOne :
    weightSum rOne statsOne = Real.log 2 * ((45 / 100 : ℚ) : ℝ) := by
  rw [weightSum, show resolvedKeys rOne statsOne = ["a"] from by decide]
  simp only [List.map_cons, List.map_nil, List.sum_cons, List.sum_nil, add_zero]
  exact combinedWeight_statsOne

theorem log2_weight_pos : (0 : ℝ) < Real.log 2 * ((45 / 100 : ℚ) : ℝ) := by
  have hL : 0 < Real.log 2 := Real.log_pos (by norm_num)
  have hc : (0 : ℝ) < ((45 / 100 : ℚ) : ℝ) := by push_cast; norm_num
  positivity

/-! ## Claim C1 -/

/-- Claim C1 (amended): whenever the weight sum is nonzero AND the weighted
mean vector is itself nonzero, the embedding returned by aggregate has L2
norm exactly 1; when the weight sum is zero, aggregate returns the
zero-weight embedding with coverage flagged 0 through the guard, so no
division by zero occurs. -/
theorem C1_unit_norm (r : String → Option Vec) (u : String)
    (stats : List WindowStat) :
    (weightSum r stats ≠ 0 → normSq (meanVec r stats) ≠ 0 →
      l2norm (aggregate r u stats).vector = 1) ∧
    (weightSum r stats = 0 →
      (aggregate r u stats).vector = zeroVec ∧
      (aggregate r u stats).coverage = 0) := by
  constructor
  · intro hws hm
    rw [aggregate, if_neg hws]
    exact l2norm_normalize_of_normSq_ne_zero _ hm
  · intro hws
    rw [aggregate, if_pos hws]
    exact ⟨rfl, rfl⟩

/-- Claim C1 counterexample: two resolvable items with exactly opposite unit
embeddings and equal weights give a nonzero weight sum, yet the aggregated
embedding is the zero vector, so its L2 norm is 0, not 1 — refuting the
claim that a nonzero weight sum alone guarantees unit norm. -/
theorem C1_counterexample :
    weightSum rCancel statsCancel ≠ 0 ∧
    (aggregate rCancel "u" statsCancel).vector = zeroVec ∧
    l2norm (aggregate rCancel "u" statsCancel).vector ≠ 1 := by
  have hcwA : combinedWeight rCancel statsCancel "a" =
      Real.log 2 * ((45 / 100 : ℚ) : ℝ) := by
    rw [combinedWeight_single rCancel statsCancel "a" ⟨"a", 1, .overall, none⟩
        (by decide) (by decide)]
    rw [itemWeight_overall]
    norm_num
  have hcwB : combinedWeight rCancel statsCancel "b" =
      Real.log 2 * ((45 / 100 : ℚ) : ℝ) := by
    rw [combinedWeight_single rCancel statsCancel "b" ⟨"b", 1, .overall, none⟩
        (by decide) (by decide)]
    rw [itemWeight_overall]
    norm_num
  have hws : weightSum rCancel statsCancel =
      Real.log 2 * ((45 / 100 : ℚ) : ℝ) + Real.log 2 * ((45 / 100 : ℚ) : ℝ) := by
    rw [weightSum, show resolvedKeys rCancel statsCancel = ["a", "b"] from by decide]
    simp only [List.map_cons, List.map_nil, List.sum_cons, List.sum_nil, add_zero]
    rw [hcwA, hcwB]
  have hwsne : weightSum rCancel statsCancel ≠ 0 := by
    rw [hws]
    have := log2_weight_pos
    intro hcon
    linarith
  have hvs : weightedVecSum rCancel statsCancel = zeroVec := by
    funext i
    show ((resolvedKeys rCancel statsCancel).map
      fun k => combinedWeight rCancel statsCancel k * vecOf rCancel k i).sum = zeroVec i
    rw [show resolvedKeys rCancel statsCancel = ["a", "b"] from by decide]
    simp only [List.map_cons, List.map_nil, List.sum_cons, List.sum_nil, add_zero]
    rw [hcwA, hcwB]
    have hva : vecOf rCancel "a" i = e0 i := by
      rw [vecOf, show rCancel "a" = some e0 from by rw [rCancel, if_pos rfl]]
      rfl
    have hvb : vecOf rCancel "b" i = e0neg i := by
      rw [vecOf, show rCancel "b" = some e0neg from by
        rw [rCancel]
        rw [if_neg (by decide), if_pos rfl]]
      rfl
    have he : e0neg i = -(e0 i) := by
      simp only [e0, e0neg]
      split <;> norm_num
    rw [hva, hvb, he, zeroVec]
    ring
  have hmean : meanVec rCancel statsCancel = zeroVec := by
    funext i
    show weightedVecSum rCancel statsCancel i / weightSum rCancel statsCancel = zeroVec i
    rw [hvs]
    show (0 : ℝ) / weightSum rCancel statsCancel = (0 : ℝ)
    exact zero_div _
  have hvec : (aggregate rCancel "u" statsCancel).vector = zeroVec := by
    rw [aggregate, if_neg hwsne]
    show normalize (meanVec rCancel statsCancel) = zeroVec
    rw [hmean]
    funext i
    show zeroVec i / l2norm zeroVec = zeroVec i
    show (0 : ℝ) / l2norm zeroVec = (0 : ℝ)
    exact zero_div _
  refine ⟨hwsne, hvec, ?_⟩
  rw [hvec]
  have hz : l2norm zeroVec = 0 := by
    unfold l2norm normSq zeroVec
    simp
  rw [hz]
  norm_num

/-- Claim C1 witness: a single resolvable unit-embedding item — the weight
sum and the mean vector are nonzero and the returned embedding has L2 norm
exactly 1. -/
theorem C1_unit_norm_witness :
    weightSum rOne statsOne ≠ 0 ∧ normSq (meanVec rOne statsOne) ≠ 0 ∧
    l2norm (aggregate rOne "u" statsOne).vector = 1 := by
  have hwsne : weightSum rOne statsOne ≠ 0 := by
    rw [weightSum_statsOne]
    have := log2_weight_pos
    intro hcon
    linarith
  have hmean : meanVec rOne statsOne = e0 := by
    funext i
    show weightedVecSum rOne statsOne i / weightSum rOne statsOne = e0 i
    have hvsum : weightedVecSum rOne statsOne i =
        Real.log 2 * ((45 / 100 : ℚ) : ℝ) * e0 i := by
      show ((resolvedKeys rOne statsOne).map
        fun k => combinedWeight rOne statsOne k * vecOf rOne k i).sum =
          Real.log 2 * ((45 / 100 : ℚ) : ℝ) * e0 i
      rw [show resolvedKeys rOne statsOne = ["a"] from by decide]
      simp only [List.map_cons, List.map_nil, List.sum_cons, List.sum_nil, add_zero]
      rw [combinedWeight_statsOne]
      have hva : vecOf rOne "a" i = e0 i := by
        rw [vecOf, show rOne "a" = some e0 from by rw [rOne, if_pos rfl]]
        rfl
      rw [hva]
    rw [hvsum, weightSum_statsOne]
    exact mul_div_cancel_left₀ (e0 i) (by
      have := log2_weight_pos
      intro hcon
      linarith)
  have hm : normSq (meanVec rOne statsOne) ≠ 0 := by
    rw [hmean, normSq_e0]
    norm_num
  exact ⟨hwsne, hm, (C1_unit_norm rOne "u" statsOne).1 hwsne hm⟩

/-! ## Claim C5 -/

/-- Claim C5 (amended): the consistency boost multiplies an item's combined
weight by 1.4 exactly once for any number of windows beyond the first; and
an item resolvable in two distinct windows contributes strictly more total
weight than the same item with the second window's stats dropped (the
equal-aggregate-playCount comparison of the original claim fails, see the
counterexample). -/
theorem C5_boost_once (r : String → Option Vec) (k : String) (v : Vec)
    (p q : ℕ) (w1 w2 : WindowLabel) (a1 a2 : Option ℕ)
    (hr : r k = some v) (hw : w1 ≠ w2) (hp : 1 ≤ p) (hq : 1 ≤ q) :
    (∀ n, 2 ≤ n → boostFactor n = 14 / 10) ∧
    combinedWeight r [⟨k, p, w1, a1⟩] k <
      combinedWeight r [⟨k, p, w1, a1⟩, ⟨k, q, w2, a2⟩] k := by
  have hboost : ∀ n, 2 ≤ n → boostFactor n = 14 / 10 := by
    intro n hn
    rw [boostFactor, if_pos hn]
  refine ⟨hboost, ?_⟩
  have hks1 : keyStats r [⟨k, p, w1, a1⟩] k = [⟨k, p, w1, a1⟩] := by
    simp [keyStats, resolvedStats, hr]
  have hks2 : keyStats r [⟨k, p, w1, a1⟩, ⟨k, q, w2, a2⟩] k =
      [⟨k, p, w1, a1⟩, ⟨k, q, w2, a2⟩] := by
    simp [keyStats, resolvedStats, hr]
  have hwin1 : windowsOf r [⟨k, p, w1, a1⟩] k = [w1] := by
    rw [windowsOf, hks1]
    simp
  have hwin2 : windowsOf r [⟨k, p, w1, a1⟩, ⟨k, q, w2, a2⟩] k = [w1, w2] := by
    rw [windowsOf, hks2]
    simp only [List.map_cons, List.map_nil]
    rw [List.dedup_cons_of_not_mem (by simp [hw]), List.dedup_cons_of_not_mem (by simp)]
    rw [List.dedup_nil]
  have hw1pos : 0 < itemWeight ⟨k, p, w1, a1⟩ := itemWeight_pos _ hp
  have hw2pos : 0 < itemWeight ⟨k, q, w2, a2⟩ := itemWeight_pos _ hq
  rw [combinedWeight, combinedWeight, preBoostWeight, preBoostWeight,
    hks1, hks2, hwin1, hwin2]
  simp only [List.map_cons, List.map_nil, List.sum_cons, List.sum_nil, add_zero,
    List.length_cons, List.length_nil]
  rw [show boostFactor 1 = 1 from by rw [boostFactor, if_neg (by norm_num)],
    hboost 2 (by norm_num)]
  push_cast
  nlinarith [hw1pos, hw2pos]

/-- Claim C5 witness: the amended comparison at a concrete input — item "a"
with 1 overall play gains strictly more combined weight when 2 recent plays
(age 300 days) are added in a second window. -/
theorem C5_boost_once_witness :
    (∀ n, 2 ≤ n → boostFactor n = 14 / 10) ∧
    combinedWeight rOne [⟨"a", 1, .overall, none⟩] "a" <
      combinedWeight rOne [⟨"a", 1, .overall, none⟩, ⟨"a", 2, .recent200, some 300⟩] "a" :=
  C5_boost_once rOne "a" e0 1 2 .overall .recent200 none (some 300)
    (by rw [rOne, if_pos rfl]) (by decide) (by norm_num) (by norm_num)

/-- Claim C5 counterexample: the original claim's comparison at equal
aggregate playCount is false — item "a" split over two windows (1 overall
play + 2 recent plays aged 300 days, boost applied) contributes strictly
LESS total weight than the same item with all 3 plays in the overall window
only, because the second window's weight and decay are small. -/
theorem C5_counterexample :
    (windowsOf rOne statsTwoWin "a").length = 2 ∧
    (statsTwoWin.map WindowStat.playCount).sum =
      (statsOneWin.map WindowStat.playCount).sum ∧
    combinedWeight rOne statsTwoWin "a" < combinedWeight rOne statsOneWin "a" := by
  refine ⟨by decide, by decide, ?_⟩
  have hdecay : temporalDecay (some 300) = (1 / 1024 : ℝ) := by
    have h30 : ((300 : ℕ) : ℝ) / 30 = ((10 : ℕ) : ℝ) := by norm_num
    simp only [temporalDecay]
    rw [h30, Real.rpow_natCast]
    norm_num
  have hA : combinedWeight rOne statsTwoWin "a" =
      (Real.log 2 * ((45 / 100 : ℚ) : ℝ) +
        Real.log 3 * ((15 / 100 : ℚ) : ℝ) * (1 / 1024 : ℝ)) * ((14 / 10 : ℚ) : ℝ) := by
    rw [combinedWeight, preBoostWeight,
      show keyStats rOne statsTwoWin "a" = statsTwoWin from by decide,
      show (windowsOf rOne statsTwoWin "a").length = 2 from by decide,
      show boostFactor 2 = 14 / 10 from by rw [boostFactor, if_pos (by norm_num)]]
    simp only [statsTwoWin, List.map_cons, List.map_nil, List.sum_cons,
      List.sum_nil, add_zero]
    rw [itemWeight_overall "a" 1]
    rw [show itemWeight ⟨"a", 2, .recent200, some 300⟩ =
        Real.log 3 * ((15 / 100 : ℚ) : ℝ) * (1 / 1024 : ℝ) from by
      rw [itemWeight, hdecay]
      simp only [log1p, windowWeight]
      norm_num]
    norm_num
  have hB : combinedWeight rOne statsOneWin "a" =
      Real.log 4 * ((45 / 100 : ℚ) : ℝ) := by
    rw [combinedWeight_single rOne statsOneWin "a" ⟨"a", 3, .overall, none⟩
        (by decide) (by decide)]
    rw [itemWeight_overall]
    norm_num
  rw [hA, hB]
  have hL2 : 0 < Real.log 2 := Real.log_pos (by norm_num)
  have hL4 : Real.log 4 = 2 * Real.log 2 := by
    rw [show (4 : ℝ) = 2 ^ 2 by norm_num, Real.log_pow]
    push_cast
    ring
  have hL34 : Real.log 3 < Real.log 4 := Real.log_lt_log (by norm_num) (by norm_num)
  rw [hL4] at hL34 ⊢
  push_cast
  nlinarith [hL2, hL34]

/-! ## Claim C2 -/

/-- Claim C2: resolve tries cache, exact, fuzzy, zero-shot, miss in that
fixed order, returning on the first success; and whenever the catalog holds
an exact match for the key, resolve (over any catalog-faithful cache) yields
tier `exact` — never `fuzzy` or `zeroShot`, even if a fuzzy candidate also
exists. -/
theorem C2_resolver_order (c : Catalog) (cache : List (String × ResolvedItem))
    (k : String) (hfaithful : CacheFaithful c cache) :
    (∀ item, lookupEntry cache k = some item → resolve c cache k = item) ∧
    (lookupEntry cache k = none → resolve c cache k = resolveUncached c k) ∧
    (∀ v, c.exactLookup k = some v → resolveUncached c k = ⟨k, some v, .exact⟩) ∧
    (c.exactLookup k = none → ∀ k2 v, c.fuzzyLookup k = some (k2, v) →
      resolveUncached c k = ⟨k, some v, .fuzzy⟩) ∧
    (c.exactLookup k = none → c.fuzzyLookup k = none → ∀ v,
      c.zeroShotLookup k = some v → resolveUncached c k = ⟨k, some v, .zeroShot⟩) ∧
    (c.exactLookup k = none → c.fuzzyLookup k = none → c.zeroShotLookup k = none →
      resolveUncached c k = ⟨k, none, .miss⟩) ∧
    ((c.exactLookup k).isSome → (resolve c cache k).tier = .exact) := by
  refine ⟨?_, ?_, ?_, ?_, ?_, ?_, ?_⟩
  · intro item h
    rw [resolve, h]
  · intro h
    rw [resolve, h]
  · intro v h
    rw [resolveUncached, h]
  · intro he k2 v h
    rw [resolveUncached, he, h]
  · intro he hf v h
    rw [resolveUncached, he, hf, h]
  · intro he hf hz
    rw [resolveUncached, he, hf, hz]
  · intro hsome
    obtain ⟨v, hv⟩ := Option.isSome_iff_exists.mp hsome
    have hexact : resolveUncached c k = ⟨k, some v, .exact⟩ := by
      rw [resolveUncached, hv]
    cases hcache : lookupEntry cache k with
    | some item =>
      rw [resolve, hcache]
      rw [hfaithful k item hcache, hexact]
    | none =>
      rw [resolve, hcache, hexact]

/-- Claim C2 witness: over the empty (trivially faithful) cache, the item
"a" — which has both an exact match and a fuzzy candidate in the catalog —
resolves with tier `exact`. -/
theorem C2_resolver_order_witness :
    (catalogW.exactLookup "a").isSome = true ∧
    (catalogW.fuzzyLookup "a").isSome = true ∧
    (resolve catalogW [] "a").tier = .exact := by
  refine ⟨rfl, rfl, ?_⟩
  exact (C2_resolver_order catalogW [] "a"
    (fun k item h => by simp [lookupEntry] at h)).2.2.2.2.2.2 rfl

/-! ## Claim C8 -/

/-- Claim C8: if the vector index is unreachable, findMatches fails with
DependencyUnavailable; if the query timed out, it fails with
DependencyTimeout; and a successful (`ok`) return can only arise from a
successful index response — never an empty-but-successful or partial list in
either failure case. -/
theorem C8_all_or_nothing (resp : IndexResult) :
    (resp = .unreachable → findMatches resp = .error .dependencyUnavailable) ∧
    (resp = .timedOut → findMatches resp = .error .dependencyTimeout) ∧
    (∀ l, findMatches resp = .ok l → ∃ hits, resp = .ok hits ∧
      l = hits.map fun h => ⟨h.1, h.2, compatibilityScore h.2⟩) := by
  cases resp <;> simp [findMatches]

/-- Claim C8 witness: the two failure outcomes at the concrete failing
responses. -/
theorem C8_all_or_nothing_witness :
    findMatches .unreachable = .error .dependencyUnavailable ∧
    findMatches .timedOut = .error .dependencyTimeout :=
  ⟨(C8_all_or_nothing .unreachable).1 rfl, (C8_all_or_nothing .timedOut).2.1 rfl⟩

/-! ## Cache lemmas -/

theorem get_eq_of_lookup_none (c : LRUCache) (k : String)
    (h : lookupEntry c.entries k = none) : c.get k = (none, c) := by
  unfold LRUCache.get
  rw [h]

theorem get_eq_of_lookup_some (c : LRUCache) (k : String) (v : ResolvedItem)
    (h : lookupEntry c.entries k = some v) :
    c.get k = (some v, ⟨c.capacity, (k, v) :: c.entries.eraseP fun e => e.1 == k⟩) := by
  unfold LRUCache.get
  rw [h]

theorem map_fst_eraseP (l : List (String × ResolvedItem)) (k : String) :
    (l.eraseP fun e => e.1 == k).map Prod.fst =
      (l.map Prod.fst).eraseP fun s => s == k := by
  induction l with
  | nil => rfl
  | cons a t ih =>
    simp only [List.eraseP_cons, List.map_cons]
    cases heq : (a.1 == k) with
    | true => simp
    | false => simp [ih]

theorem perm_find?_eraseP (l : List (String × ResolvedItem))
    (p : String × ResolvedItem → Bool) (e : String × ResolvedItem)
    (h : l.find? p = some e) : l.Perm (e :: l.eraseP p) := by
  induction l with
  | nil => simp at h
  | cons a t ih =>
    by_cases hpa : p a
    · rw [List.find?_cons_of_pos _ hpa] at h
      obtain rfl : a = e := by injection h
      rw [List.eraseP_cons_of_pos hpa]
    · rw [List.find?_cons_of_neg _ hpa] at h
      rw [List.eraseP_cons_of_neg hpa]
      exact ((ih h).cons a).trans (List.Perm.swap e a _)

theorem get_entries_perm (c : LRUCache) (k : String) :
    (c.get k).2.entries.Perm c.entries ∧ (c.get k).2.capacity = c.capacity := by
  cases hl : lookupEntry c.entries k with
  | none =>
    rw [get_eq_of_lookup_none c k hl]
    exact ⟨List.Perm.refl _, rfl⟩
  | some v =>
    rw [get_eq_of_lookup_some c k v hl]
    obtain ⟨e, hfind, hsnd⟩ : ∃ e, (c.entries.find? fun x => x.1 == k) = some e ∧
        e.2 = v := by
      unfold lookupEntry at hl
      cases hf : c.entries.find? fun x => x.1 == k with
      | none => rw [hf] at hl; exact absurd hl (by simp)
      | some e =>
        rw [hf] at hl
        refine ⟨e, rfl, ?_⟩
        simpa using hl
    have hp : ((fun x : String × ResolvedItem => x.1 == k) e) = true :=
      @List.find?_some _ (fun x => x.1 == k) e _ hfind
    have hkey : e.1 = k := eq_of_beq hp
    obtain ⟨e1, e2⟩ := e
    simp only at hkey hsnd
    subst hkey
    subst hsnd
    exact ⟨(perm_find?_eraseP _ _ _ hfind).symm, rfl⟩

theorem cacheWF_get (c : LRUCache) (k : String) (h : CacheWF c) :
    CacheWF (c.get k).2 ∧ (c.get k).2.capacity = c.capacity := by
  obtain ⟨hperm, hcap⟩ := get_entries_perm c k
  refine ⟨⟨?_, ?_⟩, hcap⟩
  · rw [hperm.length_eq, hcap]
    exact h.1
  · exact ((hperm.map Prod.fst).nodup_iff).mpr h.2

theorem mem_eraseP_of_ne (l : List String) (k0 k : String) (h : k0 ∈ l)
    (hne : k0 ≠ k) : k0 ∈ l.eraseP (· == k) := by
  induction l with
  | nil => simp at h
  | cons a t ih =>
    by_cases ha : a = k
    · rw [List.eraseP_cons_of_pos (by simp [ha])]
      rcases List.mem_cons.mp h with rfl | h2
      · exact absurd ha hne
      · exact h2
    · rw [List.eraseP_cons_of_neg (by simp [ha])]
      rcases List.mem_cons.mp h with rfl | h2
      · exact List.mem_cons_self _ _
      · exact List.mem_cons_of_mem _ (ih h2)

theorem not_mem_eraseP_self (l : List String) (k : String) (h : l.Nodup) :
    k ∉ l.eraseP (· == k) := by
  induction l with
  | nil => simp
  | cons a t ih =>
    by_cases ha : a = k
    · rw [List.eraseP_cons_of_pos (by simp [ha])]
      subst ha
      exact (List.nodup_cons.mp h).1
    · rw [List.eraseP_cons_of_neg (by simp [ha])]
      intro hmem
      rcases List.mem_cons.mp hmem with h1 | h2
      · exact ha h1.symm
      · exact ih (List.nodup_cons.mp h).2 h2

theorem cacheWF_put (c : LRUCache) (k : String) (v : ResolvedItem)
    (h : CacheWF c) : CacheWF (c.put k v) ∧ (c.put k v).capacity = c.capacity := by
  refine ⟨⟨?_, ?_⟩, rfl⟩
  · show (((k, v) :: c.entries.eraseP fun e => e.1 == k).take c.capacity).length ≤
      c.capacity
    rw [List.length_take]
    exact min_le_left _ _
  · show ((((k, v) :: c.entries.eraseP fun e => e.1 == k).take c.capacity).map
      Prod.fst).Nodup
    rw [List.map_take]
    refine List.Nodup.sublist (List.take_sublist _ _) ?_
    rw [List.map_cons]
    refine List.nodup_cons.mpr ⟨?_, ?_⟩
    · rw [map_fst_eraseP]
      exact not_mem_eraseP_self _ k h.2
    · exact List.Nodup.sublist (List.Sublist.map Prod.fst (List.eraseP_sublist _)) h.2

theorem cacheWF_runOps (ops : List CacheOp) :
    ∀ c : LRUCache, CacheWF c →
      CacheWF (runOps c ops) ∧ (runOps c ops).capacity = c.capacity := by
  induction ops with
  | nil =>
    intro c h
    exact ⟨h, rfl⟩
  | cons op t ih =>
    intro c h
    have hstep : CacheWF (applyOp c op) ∧ (applyOp c op).capacity = c.capacity := by
      cases op with
      | get k => exact cacheWF_get c k h
      | put k v => exact cacheWF_put c k v h
    have hrest := ih (applyOp c op) hstep.1
    have hrun : runOps c (op :: t) = runOps (applyOp c op) t := rfl
    rw [hrun]
    exact ⟨hrest.1, hrest.2.trans hstep.2⟩

theorem put_eviction (c : LRUCache) (k : String) (v : ResolvedItem) (k0 : String)
    (hwf : CacheWF c) (hmem : k0 ∈ cacheKeys c) (hout : k0 ∉ cacheKeys (c.put k v)) :
    c.entries.length = c.capacity ∧ k ∉ cacheKeys c ∧ lruKey c = some k0 := by
  obtain ⟨hlen, hnodup⟩ := hwf
  by_cases hk : k ∈ cacheKeys c
  · exfalso
    obtain ⟨e, hel, hekey⟩ := List.mem_map.mp hk
    have herase_len : (c.entries.eraseP fun x => x.1 == k).length + 1 =
        c.entries.length :=
      List.length_eraseP_add_one hel (by simp [hekey])
    have htake : ((k, v) :: c.entries.eraseP fun x => x.1 == k).take c.capacity =
        (k, v) :: c.entries.eraseP fun x => x.1 == k := by
      refine List.take_of_length_le ?_
      simp only [List.length_cons]
      omega
    have hkeys : cacheKeys (c.put k v) =
        k :: (c.entries.eraseP fun x => x.1 == k).map Prod.fst := by
      show (((k, v) :: c.entries.eraseP fun x => x.1 == k).take c.capacity).map
        Prod.fst = _
      rw [htake, List.map_cons]
    by_cases hkk : k0 = k
    · exact hout (hkeys ▸ (hkk ▸ List.mem_cons_self _ _))
    · have h1 : k0 ∈ (c.entries.eraseP fun x => x.1 == k).map Prod.fst := by
        rw [map_fst_eraseP]
        exact mem_eraseP_of_ne _ k0 k hmem hkk
      exact hout (hkeys ▸ List.mem_cons_of_mem _ h1)
  · have herase : (c.entries.eraseP fun x => x.1 == k) = c.entries := by
      refine List.eraseP_of_forall_not ?_
      intro a ha hpa
      exact hk (List.mem_map.mpr ⟨a, ha, eq_of_beq hpa⟩)
    by_cases hfull : c.entries.length = c.capacity
    · have hne : c.entries ≠ [] := by
        intro hnil
        rw [show cacheKeys c = c.entries.map Prod.fst from rfl, hnil] at hmem
        simp at hmem
    
      have hpos : 0 < c.entries.length := List.length_pos.mpr hne
      have htake : ((k, v) :: c.entries).take c.capacity =
          (k, v) :: c.entries.take (c.capacity - 1) := by
        cases hc : c.capacity with
        | zero => exfalso; omega
        | succ m =>
          rw [List.take_succ_cons]
          simp
      have hdrop : c.entries.take (c.capacity - 1) = c.entries.dropLast := by
        rw [List.dropLast_eq_take, hfull]
      have hlast := List.dropLast_append_getLast hne
      have hkeys : cacheKeys (c.put k v) =
          k :: c.entries.dropLast.map Prod.fst := by
        show (((k, v) :: c.entries.eraseP fun x => x.1 == k).take c.capacity).map
          Prod.fst = _
        rw [herase, htake, hdrop, List.map_cons]
      have hsplit : c.entries.map Prod.fst =
          c.entries.dropLast.map Prod.fst ++ [(c.entries.getLast hne).1] := by
        have h1 : c.entries.map Prod.fst =
            (c.entries.dropLast ++ [c.entries.getLast hne]).map Prod.fst := by
          rw [hlast]
        rw [h1, List.map_append]
        rfl
      have hmem2 : k0 ∈ c.entries.dropLast.map Prod.fst ++
          [(c.entries.getLast hne).1] := by
        rw [← hsplit]
        exact hmem
      rcases List.mem_append.mp hmem2 with h1 | h2
      · exact absurd (hkeys ▸ List.mem_cons_of_mem _ h1) hout
      · have hk0 : k0 = (c.entries.getLast hne).1 := by simpa using h2
        refine ⟨hfull, hk, ?_⟩
        rw [lruKey, List.getLast?_eq_getLast_of_ne_nil hne]
        simp [hk0]
    · exfalso
      have htake : ((k, v) :: c.entries).take c.capacity = (k, v) :: c.entries := by
        refine List.take_of_length_le ?_
        simp only [List.length_cons]
        omega
      have hkeys : cacheKeys (c.put k v) = k :: c.entries.map Prod.fst := by
        show (((k, v) :: c.entries.eraseP fun x => x.1 == k).take c.capacity).map
          Prod.fst = _
        rw [herase, htake, List.map_cons]
      exact hout (hkeys ▸ List.mem_cons_of_mem _ hmem)

/-! ## Claim C7 -/

/-- Claim C7: from any well-formed state (and in particular from the empty
default cache) the cache never holds more than its fixed capacity — 8,000
entries for the default — after any sequence of get/put operations; a get
removes nothing (it only moves the touched entry to the front of the access
order, so the key set is a permutation); a put removes an entry only when
the cache is at capacity and the inserted key is fresh, and the evicted key
is then exactly the least-recently-used one by access order; and the
concrete scenario (capacity 2: put a, put b, get a, put c) evicts b — the
least recently *used* key — not a, the oldest *inserted* one. -/
theorem C7_lru_cache (c : LRUCache) (ops : List CacheOp)
    (hlen : c.entries.length ≤ c.capacity) (hnodup : (cacheKeys c).Nodup) :
    ((runOps c ops).capacity = c.capacity ∧
      (runOps c ops).entries.length ≤ c.capacity ∧
      (runOps LRUCache.empty ops).entries.length ≤ 8000) ∧
    (∀ k : String, (c.get k).2.capacity = c.capacity ∧
      (cacheKeys (c.get k).2).Perm (cacheKeys c)) ∧
    (∀ (k k0 : String) (v : ResolvedItem), k0 ∈ cacheKeys c →
      k0 ∉ cacheKeys (c.put k v) →
      c.entries.length = c.capacity ∧ k ∉ cacheKeys c ∧ lruKey c = some k0) ∧
    cacheKeys (runOps ⟨2, []⟩
      [.put "a" demoItem, .put "b" demoItem, .get "a", .put "c" demoItem]) =
      ["c", "a"] := by
  have hwf : CacheWF c := ⟨hlen, hnodup⟩
  obtain ⟨hwfr, hcapr⟩ := cacheWF_runOps ops c hwf
  have hempty : CacheWF LRUCache.empty := ⟨by simp [LRUCache.empty], by
    simp [LRUCache.empty, cacheKeys]⟩
  obtain ⟨hwfe, hcape⟩ := cacheWF_runOps ops LRUCache.empty hempty
  refine ⟨⟨hcapr, ?_, ?_⟩, ?_, ?_, ?_⟩
  · have h1 := hwfr.1
    rw [hcapr] at h1
    exact h1
  · have h1 := hwfe.1
    rw [hcape] at h1
    exact h1
  · intro k
    exact ⟨(get_entries_perm c k).2, ((get_entries_perm c k).1).map Prod.fst⟩
  · intro k k0 v hmem hout
    exact put_eviction c k v k0 hwf hmem hout
  · decide

/-- Claim C7 witness: the boundedness conclusions at a concrete two-slot
cache and a concrete operation sequence. -/
theorem C7_lru_cache_witness :
    (runOps ⟨2, []⟩ [.put "a" demoItem, .put "b" demoItem]).capacity = 2 ∧
    (runOps ⟨2, []⟩ [.put "a" demoItem, .put "b" demoItem]).entries.length ≤ 2 ∧
    (runOps LRUCache.empty [.put "a" demoItem, .put "b" demoItem]).entries.length ≤
      8000 :=
  (C7_lru_cache ⟨2, []⟩ [.put "a" demoItem, .put "b" demoItem]
    (by decide) (by decide)).1

end VibeMatch
